import Mathlib

/-!
Verification of the propositional-logic expression engine of this repository
(`logic_playground.py`): lexer/normalizer (`_normalize_expr`, `_tokenize`),
shunting-yard parser to RPN (`_to_rpn`), stack evaluator (`_eval_rpn`,
`eval_expr`), and the truth-table enumeration (`_tt_rows`).  Strings are
modelled as `List Char`; Python exceptions are modelled as `Except LogicError`;
the Python `dict` environment is modelled as `Char → Option Bool` (a `none`
lookup is the `KeyError` raise site).
-/

/-- Error kinds, one per distinct raise site in the source.
`invalidCharacter` is the `ValueError` of `_normalize_expr` (line 60);
`unexpectedCharacter` the `ValueError` of `_tokenize` (line 85);
`mismatchedParentheses` the two "Mismatched parentheses." raises of `_to_rpn`
(lines 111, 115); `missingOperandNot` is "Missing operand for NOT." (line 126);
`missingOperandsBinary` is "Missing operands for binary operator." (line 130);
`malformedExpression` is "Malformed expression." (line 141); `unboundVariable`
is the `KeyError` of `env[sym]` (line 123). -/
inductive LogicError where
  | invalidCharacter
  | unexpectedCharacter
  | mismatchedParentheses
  | missingOperandNot
  | missingOperandsBinary
  | malformedExpression
  | unboundVariable
deriving DecidableEq, Repr

instance {e a : Type} [DecidableEq e] [DecidableEq a] : DecidableEq (Except e a)
  | .ok x, .ok y =>
    if h : x = y then .isTrue (by rw [h]) else .isFalse (fun hh => h (Except.ok.inj hh))
  | .ok _, .error _ => .isFalse (fun hh => Except.noConfusion hh)
  | .error _, .ok _ => .isFalse (fun hh => Except.noConfusion hh)
  | .error x, .error y =>
    if h : x = y then .isTrue (by rw [h]) else .isFalse (fun hh => h (Except.error.inj hh))

/-- A token of the engine.  The source represents a token as a pair
`(kind, text)`; after the alias mapping at lines 66-67 the `text` of every
operator or parenthesis token is determined by its kind (the canonical ASCII
symbol), so only `VAR` needs to carry its text (the variable name). -/
inductive Token where
  | VAR (name : Char)
  | NOT
  | AND
  | OR
  | IMP
  | IFF
  | LPAREN
  | RPAREN
deriving DecidableEq, Repr

/-- The backtick character, the ASCII course symbol for AND. -/
def backquote : Char := '\x60'

/-- ASCII whitespace, as removed by Python's `str.strip` and `re.sub(r"\s+")`
(the source inputs of interest contain only ASCII whitespace). -/
def isPySpace (c : Char) : Bool :=
  c == ' ' || c == '\t' || c == '\n' || c == '\r' || c == '\x0b' || c == '\x0c'

/-- Python `str.strip`: drop leading and trailing whitespace (line 52). -/
def pstrip (s : List Char) : List Char :=
  ((s.dropWhile isPySpace).reverse.dropWhile isPySpace).reverse

/-- Python `s.replace("<->", "↔")` (line 55): left-to-right, non-overlapping. -/
def replaceIff : List Char → List Char
  | '<' :: '-' :: '>' :: rest => '↔' :: replaceIff rest
  | c :: rest => c :: replaceIff rest
  | [] => []

/-- Python `s.replace("->", "→")` (line 55), applied after `replaceIff`. -/
def replaceImp : List Char → List Char
  | '-' :: '>' :: rest => '→' :: replaceImp rest
  | c :: rest => c :: replaceImp rest
  | [] => []

/-- The `_ALIAS_MAP` replacement loop (lines 45, 57-58): each single Unicode
operator character is replaced by its ASCII course alias.  Three sequential
single-character `str.replace` calls are one character map. -/
def aliasMap (c : Char) : Char :=
  if c = '¬' then ',' else if c = '∧' then backquote else if c = '∨' then '~' else c

/-- `_ALLOWED_VARS` (line 43). -/
def _ALLOWED_VARS : List Char := ['p', 'q', 'r', 'o', 'i', 'y']

/-- `_ALLOWED_TOKENS` (line 44): the character set `"pqroiy(),`~¬∧∨→↔"`. -/
def _ALLOWED_TOKENS : List Char :=
  ['p', 'q', 'r', 'o', 'i', 'y', '(', ')', ',', backquote, '~', '¬', '∧', '∨', '→', '↔']

/-- The middle phases of `_normalize_expr` on a non-empty stripped input
(lines 55-58): digraph replacement, whitespace removal and lowercasing,
alias normalization. -/
def midNormalize (s : List Char) : List Char :=
  (((replaceImp (replaceIff s)).filter (fun c => !isPySpace c)).map Char.toLower).map aliasMap

/-- `_normalize_expr` (lines 51-61).  Returns the normalized character list
(the source returns the normalized string). -/
def _normalize_expr (expr : List Char) : Except LogicError (List Char) :=
  let s := pstrip expr
  if s = [] then .ok s
  else
    let t := midNormalize s
    if t.all (fun c => _ALLOWED_TOKENS.contains c) then .ok t
    else .error .invalidCharacter

/-- `_tokenize` (lines 63-86): one token per character, applying `_ALIAS_MAP`
once more per character (lines 66-67). -/
def _tokenize : List Char → Except LogicError (List Token)
  | [] => .ok []
  | c0 :: rest =>
    let c := aliasMap c0
    if _ALLOWED_VARS.contains c then (fun ts => Token.VAR c :: ts) <$> _tokenize rest
    else if c = ',' then (fun ts => Token.NOT :: ts) <$> _tokenize rest
    else if c = backquote then (fun ts => Token.AND :: ts) <$> _tokenize rest
    else if c = '~' then (fun ts => Token.OR :: ts) <$> _tokenize rest
    else if c = '→' then (fun ts => Token.IMP :: ts) <$> _tokenize rest
    else if c = '↔' then (fun ts => Token.IFF :: ts) <$> _tokenize rest
    else if c = '(' then (fun ts => Token.LPAREN :: ts) <$> _tokenize rest
    else if c = ')' then (fun ts => Token.RPAREN :: ts) <$> _tokenize rest
    else .error .unexpectedCharacter

/-- `_PRECEDENCE` (line 46).  The source dict has no entry for the remaining
kinds; `_to_rpn` only ever consults it on operator tokens, so the default 0
is unreachable there. -/
def _PRECEDENCE : Token → Nat
  | .IFF => 1
  | .IMP => 2
  | .OR => 3
  | .AND => 4
  | .NOT => 5
  | _ => 0

/-- Associativity values of `_ASSOC` (line 47). -/
inductive Assoc where
  | L
  | R
deriving DecidableEq, Repr

/-- `_ASSOC` (line 47); the default is unreachable in `_to_rpn`. -/
def _ASSOC : Token → Assoc
  | .IFF => .R
  | .IMP => .R
  | .OR => .L
  | .AND => .L
  | .NOT => .R
  | _ => .L

/-- The inner while loop of `_to_rpn` for a binary operator (lines 97-103):
pop operators of higher (or, for left-associative, equal) precedence from the
operator stack onto the output, stopping at a left parenthesis.  The operator
stack is modelled head-topmost; the output list head-first with appends at the
end, matching the Python `list.append`. -/
def popWhileHigher (tok : Token) : List Token → List Token → List Token × List Token
  | [], output => (output, [])
  | top :: restOps, output =>
    if top = Token.LPAREN then (output, top :: restOps)
    else if (_ASSOC tok = Assoc.L ∧ _PRECEDENCE top ≥ _PRECEDENCE tok) ∨
            (_ASSOC tok = Assoc.R ∧ _PRECEDENCE top > _PRECEDENCE tok) then
      popWhileHigher tok restOps (output ++ [top])
    else (output, top :: restOps)

/-- The `RPAREN` branch of `_to_rpn` (lines 107-112): pop operators onto the
output until a left parenthesis is found and discarded; error if the operator
stack runs out first. -/
def popUntilLparen : List Token → List Token → Except LogicError (List Token × List Token)
  | [], _ => .error .mismatchedParentheses
  | top :: restOps, output =>
    if top = Token.LPAREN then .ok (output, restOps)
    else popUntilLparen restOps (output ++ [top])

/-- The final drain loop of `_to_rpn` (lines 113-116): flush the operator
stack to the output, erroring on any leftover parenthesis. -/
def flushOps : List Token → List Token → Except LogicError (List Token)
  | [], output => .ok output
  | top :: restOps, output =>
    if top = Token.LPAREN ∨ top = Token.RPAREN then .error .mismatchedParentheses
    else flushOps restOps (output ++ [top])

/-- The main token loop of `_to_rpn` (lines 91-112). -/
def toRpnGo : List Token → List Token → List Token → Except LogicError (List Token)
  | [], output, ops => flushOps ops output
  | Token.VAR c :: rest, output, ops => toRpnGo rest (output ++ [Token.VAR c]) ops
  | Token.NOT :: rest, output, ops => toRpnGo rest output (Token.NOT :: ops)
  | Token.AND :: rest, output, ops =>
    let p := popWhileHigher Token.AND ops output
    toRpnGo rest p.1 (Token.AND :: p.2)
  | Token.OR :: rest, output, ops =>
    let p := popWhileHigher Token.OR ops output
    toRpnGo rest p.1 (Token.OR :: p.2)
  | Token.IMP :: rest, output, ops =>
    let p := popWhileHigher Token.IMP ops output
    toRpnGo rest p.1 (Token.IMP :: p.2)
  | Token.IFF :: rest, output, ops =>
    let p := popWhileHigher Token.IFF ops output
    toRpnGo rest p.1 (Token.IFF :: p.2)
  | Token.LPAREN :: rest, output, ops => toRpnGo rest output (Token.LPAREN :: ops)
  | Token.RPAREN :: rest, output, ops =>
    match popUntilLparen ops output with
    | .error e => .error e
    | .ok (output', ops') => toRpnGo rest output' ops'

/-- `_to_rpn` (lines 88-117): shunting-yard conversion of a token list to RPN. -/
def _to_rpn (tokens : List Token) : Except LogicError (List Token) :=
  toRpnGo tokens [] []

/-- The binary truth rules of `_eval_rpn` (lines 132-139). -/
def applyBin (tok : Token) (a b : Bool) : Bool :=
  match tok with
  | .AND => a && b
  | .OR => a || b
  | .IMP => !a || b
  | .IFF => (a && b) || (!a && !b)
  | _ => false

/-- The token loop of `_eval_rpn` (lines 120-142), with the final
stack-size-one check.  The stack is head-topmost; a binary operator pops the
right operand first (`b = st.pop(); a = st.pop()`, line 131).  Parenthesis
tokens fall through every `elif` of the source and are skipped (they never
occur in `_to_rpn` output). -/
def evalGo : List Token → List Bool → (Char → Option Bool) → Except LogicError Bool
  | [], st, _ =>
    match st with
    | [x] => .ok x
    | _ => .error .malformedExpression
  | Token.VAR c :: rest, st, env =>
    match env c with
    | none => .error .unboundVariable
    | some b => evalGo rest (b :: st) env
  | Token.NOT :: rest, st, env =>
    match st with
    | [] => .error .missingOperandNot
    | x :: xs => evalGo rest ((!x) :: xs) env
  | Token.AND :: rest, st, env =>
    match st with
    | b :: a :: xs => evalGo rest (applyBin Token.AND a b :: xs) env
    | _ => .error .missingOperandsBinary
  | Token.OR :: rest, st, env =>
    match st with
    | b :: a :: xs => evalGo rest (applyBin Token.OR a b :: xs) env
    | _ => .error .missingOperandsBinary
  | Token.IMP :: rest, st, env =>
    match st with
    | b :: a :: xs => evalGo rest (applyBin Token.IMP a b :: xs) env
    | _ => .error .missingOperandsBinary
  | Token.IFF :: rest, st, env =>
    match st with
    | b :: a :: xs => evalGo rest (applyBin Token.IFF a b :: xs) env
    | _ => .error .missingOperandsBinary
  | Token.LPAREN :: rest, st, env => evalGo rest st env
  | Token.RPAREN :: rest, st, env => evalGo rest st env

/-- `_eval_rpn` (lines 119-142). -/
def _eval_rpn (rpn : List Token) (env : Char → Option Bool) : Except LogicError Bool :=
  evalGo rpn [] env

/-- `eval_expr` (lines 144-148): normalize, tokenize, parse to RPN, evaluate. -/
def eval_expr (expr : String) (env : Char → Option Bool) : Except LogicError Bool := do
  let s ← _normalize_expr expr.toList
  let tokens ← _tokenize s
  let rpn ← _to_rpn tokens
  _eval_rpn rpn env

/-- The front half of `eval_expr`: normalize then tokenize (the lexer of the
specification). -/
def normalize_and_tokenize (expr : String) : Except LogicError (List Token) := do
  let s ← _normalize_expr expr.toList
  _tokenize s

/-- The parsing pipeline of `eval_expr` (lines 145-147): normalize, tokenize,
convert to RPN. -/
def parse_to_rpn (expr : String) : Except LogicError (List Token) := do
  let tokens ← normalize_and_tokenize expr
  _to_rpn tokens

/-- `_tt_rows` (lines 422-424): all truth assignments over `varnames`, in
`itertools.product([True, False], ...)` order — the first variable varies
slowest and `True` is enumerated before `False` for every variable.  A row is
an association list standing for the Python dict. -/
def _tt_rows : List Char → List (List (Char × Bool))
  | [] => [[]]
  | v :: vs =>
    ((_tt_rows vs).map (fun row => (v, true) :: row)) ++
    ((_tt_rows vs).map (fun row => (v, false) :: row))

/-- A truth-table row as an environment. -/
def envOfRow (row : List (Char × Bool)) : Char → Option Bool :=
  fun c => (row.find? (fun p => p.1 == c)).map (fun p => p.2)

/-- Two RPN programs agree on a row when both evaluate without error and
produce the same boolean. -/
def agreeOn (pa pb : List Token) (row : List (Char × Bool)) : Bool :=
  match _eval_rpn pa (envOfRow row), _eval_rpn pb (envOfRow row) with
  | .ok x, .ok y => x == y
  | _, _ => false

/-- Modelled from the spec: the repository source contains no standalone
`equivalent(progA, progB, vars)` function (only the truth-table utilities
`_tt_rows` and `_tt_for_expr`); the equivalence checker of specification §4.4
is modelled here on top of the source's `_tt_rows` enumeration: return
`(true, none)` when the programs agree on every assignment, else `(false,
some env)` for the first disagreeing assignment in `_tt_rows` order, an
evaluation error counting as disagreement. -/
def equivalent (pa pb : List Token) (vars : List Char) :
    Bool × Option (List (Char × Bool)) :=
  match (_tt_rows vars).find? (fun row => !(agreeOn pa pb row)) with
  | none => (true, none)
  | some row => (false, some row)

/-- An environment binding exactly `p` and `q`. -/
def env2 (a b : Bool) : Char → Option Bool :=
  fun c => if c = 'p' then some a else if c = 'q' then some b else none

/-- An environment binding exactly `p`, `q` and `r`. -/
def env3 (a b c : Bool) : Char → Option Bool :=
  fun ch => if ch = 'p' then some a else if ch = 'q' then some b
            else if ch = 'r' then some c else none

/-- An environment binding exactly `o`, `y` and `i`. -/
def envOYI (a b c : Bool) : Char → Option Bool :=
  fun ch => if ch = 'o' then some a else if ch = 'y' then some b
            else if ch = 'i' then some c else none

/-- The environment binding nothing (an empty Python dict). -/
def emptyEnv : Char → Option Bool := fun _ => none

def impSrc : String := "p→q"
def precSrc : String := "p ~ q ` r"
def precRef : String := "p ∨ (q ∧ r)"
def notAndSrc : String := ",p`q"
def notAndRef : String := "(,p)`q"
def orImpSrc : String := "p~q→r"
def orImpRef : String := "(p~q)→r"
def impIffSrc : String := "p→q↔r"
def impIffRef : String := "(p→q)↔r"
def impChain : String := "p → q → r"
def impChainRight : String := "p → (q → r)"
def andChain : String := "p ` q ` r"
def andChainLeft : String := "(p ` q) ` r"
def iffChain : String := "p↔q↔r"
def orChain : String := "p~q~r"
def deMorganNotOr : String := ",(p ~ q)"
def deMorganAndNots : String := ",p ` ,q"
def aliasAscii : String := ",p ` q"
def aliasUnicode : String := "¬p ∧ q"
def aliasMixed : String := "¬p ` q"
def badCharExpr : String := "p & q"
def doubledOp : String := "p ` ` q"
def unbalancedParen : String := "(p ` q"
def notThenAnd : String := ",`p"

/-- C1: evaluation is a single left-to-right pass over a boolean stack; NOT
pops one operand and pushes its negation; each binary operator pops the right
operand first then the left and pushes the combined result; IMPLIES is
computed as (not left) or right, so evaluating `p → q` is false exactly when
`p` is bound true and `q` is bound false. -/
theorem claim1_rpn_evaluation_semantics :
    (∀ rest st env a b, evalGo (Token.AND :: rest) (b :: a :: st) env
      = evalGo rest ((a && b) :: st) env)
    ∧ (∀ rest st env a b, evalGo (Token.OR :: rest) (b :: a :: st) env
      = evalGo rest ((a || b) :: st) env)
    ∧ (∀ rest st env a b, evalGo (Token.IMP :: rest) (b :: a :: st) env
      = evalGo rest (((!a) || b) :: st) env)
    ∧ (∀ rest st env a b, evalGo (Token.IFF :: rest) (b :: a :: st) env
      = evalGo rest (((a && b) || ((!a) && (!b))) :: st) env)
    ∧ (∀ rest st env x, evalGo (Token.NOT :: rest) (x :: st) env
      = evalGo rest ((!x) :: st) env)
    ∧ (∀ rest st env c v, env c = some v →
        evalGo (Token.VAR c :: rest) st env = evalGo rest (v :: st) env)
    ∧ (∀ a b, eval_expr impSrc (env2 a b) = .ok ((!a) || b))
    ∧ (∀ a b, (eval_expr impSrc (env2 a b) = .ok false ↔ a = true ∧ b = false)) := by
  refine ⟨fun _ _ _ _ _ => rfl, fun _ _ _ _ _ => rfl, fun _ _ _ _ _ => rfl,
    fun _ _ _ _ _ => rfl, fun _ _ _ _ => rfl, ?_, by decide, by decide⟩
  intro rest st env c v h
  simp only [evalGo, h]

/-- Witness for C1 at a concrete input: the bound-variable step hypothesis is
discharged at `env2 true false`, and `p → q` evaluates to false there. -/
theorem claim1_rpn_evaluation_semantics_witness :
    env2 true false 'p' = some true
    ∧ evalGo [Token.VAR 'p'] [] (env2 true false) = evalGo [] [true] (env2 true false)
    ∧ eval_expr impSrc (env2 true false) = .ok false :=
  ⟨rfl, claim1_rpn_evaluation_semantics.2.2.2.2.2.1 [] [] (env2 true false) 'p' true rfl,
    (claim1_rpn_evaluation_semantics.2.2.2.2.2.2.2 true false).mpr ⟨rfl, rfl⟩⟩

/-- C2: AND binds tighter than OR — `p ~ q ` r` evaluates identically to
`p ∨ (q ∧ r)` on all eight assignments — and more generally the parser uses
the precedence order NOT(5) > AND(4) > OR(3) > IMPLIES(2) > IFF(1), each
higher-precedence operator binding tighter than the next (checked on an
assignment-exhaustive instance for every adjacent pair). -/
theorem claim2_precedence :
    (∀ a b c : Bool, eval_expr precSrc (env3 a b c) = eval_expr precRef (env3 a b c))
    ∧ _PRECEDENCE Token.NOT = 5 ∧ _PRECEDENCE Token.AND = 4 ∧ _PRECEDENCE Token.OR = 3
    ∧ _PRECEDENCE Token.IMP = 2 ∧ _PRECEDENCE Token.IFF = 1
    ∧ (∀ a b : Bool, eval_expr notAndSrc (env2 a b) = eval_expr notAndRef (env2 a b))
    ∧ (∀ a b c : Bool, eval_expr orImpSrc (env3 a b c) = eval_expr orImpRef (env3 a b c))
    ∧ (∀ a b c : Bool, eval_expr impIffSrc (env3 a b c) = eval_expr impIffRef (env3 a b c)) := by
  refine ⟨by decide, rfl, rfl, rfl, rfl, rfl, by decide, by decide, by decide⟩

/-- C3: AND and OR are left-associative, NOT, IMPLIES and IFF right-associative
in the parser: `p → q → r` evaluates as `p → (q → r)` and `p ` q ` r` as
`(p ` q) ` r` on every assignment; the emitted RPN exhibits the grouping
structurally (left-nested for AND/OR, right-nested for IMPLIES/IFF). -/
theorem claim3_associativity :
    _ASSOC Token.AND = Assoc.L ∧ _ASSOC Token.OR = Assoc.L ∧ _ASSOC Token.NOT = Assoc.R
    ∧ _ASSOC Token.IMP = Assoc.R ∧ _ASSOC Token.IFF = Assoc.R
    ∧ (∀ a b c : Bool, eval_expr impChain (env3 a b c) = eval_expr impChainRight (env3 a b c))
    ∧ (∀ a b c : Bool, eval_expr andChain (env3 a b c) = eval_expr andChainLeft (env3 a b c))
    ∧ parse_to_rpn andChain
      = .ok [Token.VAR 'p', Token.VAR 'q', Token.AND, Token.VAR 'r', Token.AND]
    ∧ parse_to_rpn orChain
      = .ok [Token.VAR 'p', Token.VAR 'q', Token.OR, Token.VAR 'r', Token.OR]
    ∧ parse_to_rpn impChain
      = .ok [Token.VAR 'p', Token.VAR 'q', Token.VAR 'r', Token.IMP, Token.IMP]
    ∧ parse_to_rpn iffChain
      = .ok [Token.VAR 'p', Token.VAR 'q', Token.VAR 'r', Token.IFF, Token.IFF] := by
  refine ⟨rfl, rfl, rfl, rfl, rfl, by decide, by decide, by decide, by decide, by decide, by decide⟩

/-- C5: De Morgan end-to-end — under every environment binding `p` and `q`,
`,(p ~ q)` (that is ¬(p∨q)) evaluates to the same boolean as `,p ` ,q`
(that is ¬p∧¬q), and the equivalence check of the two parsed programs over
{p, q} reports them equivalent with no counterexample. -/
theorem claim5_de_morgan :
    (∀ (env : Char → Option Bool) (a b : Bool), env 'p' = some a → env 'q' = some b →
      eval_expr deMorganNotOr env = eval_expr deMorganAndNots env)
    ∧ ∃ pa pb, parse_to_rpn deMorganNotOr = .ok pa ∧ parse_to_rpn deMorganAndNots = .ok pb
        ∧ equivalent pa pb ['p', 'q'] = (true, none) := by
  constructor
  · intro env a b hp hq
    have e1 : eval_expr deMorganNotOr env
        = evalGo [Token.VAR 'p', Token.VAR 'q', Token.OR, Token.NOT] [] env := rfl
    have e2 : eval_expr deMorganAndNots env
        = evalGo [Token.VAR 'p', Token.NOT, Token.VAR 'q', Token.NOT, Token.AND] [] env := rfl
    rw [e1, e2]
    simp only [evalGo, hp, hq]
    cases a <;> cases b <;> rfl
  · exact ⟨[Token.VAR 'p', Token.VAR 'q', Token.OR, Token.NOT],
      [Token.VAR 'p', Token.NOT, Token.VAR 'q', Token.NOT, Token.AND],
      by decide, by decide, by decide⟩

/-- Witness for C5: the binding hypotheses are discharged at the concrete
environment `env2 true false`. -/
theorem claim5_de_morgan_witness :
    env2 true false 'p' = some true ∧ env2 true false 'q' = some false
    ∧ eval_expr deMorganNotOr (env2 true false) = eval_expr deMorganAndNots (env2 true false) :=
  ⟨rfl, rfl, claim5_de_morgan.1 (env2 true false) true false rfl rfl⟩

/-- Counterexample to C8 as stated: parsing the doubled-operator input
`p ` ` q` does not raise any error — `_to_rpn` returns an RPN sequence —
so no `MalformedExpression` error is raised by parsing. -/
theorem claim8_counterexample :
    parse_to_rpn doubledOp = .ok [Token.VAR 'p', Token.AND, Token.VAR 'q', Token.AND] := by
  decide

/-- C8 amended: parsing `(p ` q` raises MismatchedParentheses, while the
doubled binary operator of `p ` ` q` is accepted by the parser and the
missing-operands (MalformedExpression-family) error is raised at evaluation
time, under every environment that binds `p`. -/
theorem claim8_malformed_rejection :
    parse_to_rpn unbalancedParen = .error .mismatchedParentheses
    ∧ (∀ (env : Char → Option Bool) (a : Bool), env 'p' = some a →
        eval_expr doubledOp env = .error .missingOperandsBinary) := by
  refine ⟨by decide, ?_⟩
  intro env a hp
  have e1 : eval_expr doubledOp env
      = evalGo [Token.VAR 'p', Token.AND, Token.VAR 'q', Token.AND] [] env := rfl
  rw [e1]
  simp only [evalGo, hp]

/-- Witness for C8's amended claim at the concrete environment `env2 true true`. -/
theorem claim8_malformed_rejection_witness :
    env2 true true 'p' = some true
    ∧ eval_expr doubledOp (env2 true true) = .error .missingOperandsBinary :=
  ⟨rfl, claim8_malformed_rejection.2 (env2 true true) true rfl⟩

/-- The claim's direction of the alias pairs: rewrite the ASCII course
notation into the equivalent standard Unicode notation (the inverse of the
source's `_ALIAS_MAP`). -/
def toUnicodeAlias (c : Char) : Char :=
  if c = ',' then '¬' else if c = backquote then '∧' else if c = '~' then '∨' else c

theorem isPySpace_toUni (c : Char) : isPySpace (toUnicodeAlias c) = isPySpace c := by
  unfold toUnicodeAlias
  split_ifs with h1 h2 h3
  · subst h1; decide
  · subst h2; decide
  · subst h3; decide
  · rfl

theorem toUni_eq_self (c x : Char) (hx1 : x ≠ '¬') (hx2 : x ≠ '∧') (hx3 : x ≠ '∨')
    (h : toUnicodeAlias c = x) : c = x := by
  unfold toUnicodeAlias at h
  split_ifs at h with h1 h2 h3
  · exact absurd h.symm hx1
  · exact absurd h.symm hx2
  · exact absurd h.symm hx3
  · exact h

theorem pstrip_map_toUni (s : List Char) :
    pstrip (s.map toUnicodeAlias) = (pstrip s).map toUnicodeAlias := by
  have hsp : (isPySpace ∘ toUnicodeAlias) = isPySpace := funext isPySpace_toUni
  unfold pstrip
  rw [List.dropWhile_map, hsp, ← List.map_reverse, List.dropWhile_map, hsp, ← List.map_reverse]

theorem replaceIff_map_toUni (s : List Char) :
    replaceIff (s.map toUnicodeAlias) = (replaceIff s).map toUnicodeAlias := by
  induction s using replaceIff.induct with
  | case1 rest ih =>
    have : (('<' :: '-' :: '>' :: rest).map toUnicodeAlias)
        = '<' :: '-' :: '>' :: rest.map toUnicodeAlias := rfl
    rw [this, replaceIff.eq_1, replaceIff.eq_1, ih]
    rfl
  | case2 c rest h ih =>
    rw [List.map_cons]
    rw [replaceIff.eq_2 c rest h, List.map_cons, ← ih]
    refine replaceIff.eq_2 _ _ ?_
    intro r1 hc hrest
    have hc' : c = '<' := toUni_eq_self c '<' (by decide) (by decide) (by decide) hc
    subst hc'
    cases rest with
    | nil => simp at hrest
    | cons d rest1 =>
      cases rest1 with
      | nil => simp at hrest
      | cons e rest0 =>
        rw [List.map_cons, List.map_cons] at hrest
        have hd : toUnicodeAlias d = '-' := (List.cons.inj hrest).1
        have hrest2 := (List.cons.inj hrest).2
        have he : toUnicodeAlias e = '>' := (List.cons.inj hrest2).1
        have hd' : d = '-' := toUni_eq_self d '-' (by decide) (by decide) (by decide) hd
        have he' : e = '>' := toUni_eq_self e '>' (by decide) (by decide) (by decide) he
        exact h rest0 rfl (by rw [hd', he'])
  | case3 => rfl

theorem replaceImp_map_toUni (s : List Char) :
    replaceImp (s.map toUnicodeAlias) = (replaceImp s).map toUnicodeAlias := by
  induction s using replaceImp.induct with
  | case1 rest ih =>
    have : (('-' :: '>' :: rest).map toUnicodeAlias)
        = '-' :: '>' :: rest.map toUnicodeAlias := rfl
    rw [this, replaceImp.eq_1, replaceImp.eq_1, ih]
    rfl
  | case2 c rest h ih =>
    rw [List.map_cons]
    rw [replaceImp.eq_2 c rest h, List.map_cons, ← ih]
    refine replaceImp.eq_2 _ _ ?_
    intro r1 hc hrest
    have hc' : c = '-' := toUni_eq_self c '-' (by decide) (by decide) (by decide) hc
    subst hc'
    cases rest with
    | nil => simp at hrest
    | cons d rest0 =>
      rw [List.map_cons] at hrest
      have hd : toUnicodeAlias d = '>' := (List.cons.inj hrest).1
      have hd' : d = '>' := toUni_eq_self d '>' (by decide) (by decide) (by decide) hd
      exact h rest0 rfl (by rw [hd'])
  | case3 => rfl

theorem aliasMap_toLower_toUni (c : Char) :
    aliasMap (Char.toLower (toUnicodeAlias c)) = aliasMap (Char.toLower c) := by
  unfold toUnicodeAlias
  split_ifs with h1 h2 h3
  · subst h1; decide
  · subst h2; decide
  · subst h3; decide
  · rfl

theorem midNormalize_map_toUni (s : List Char) :
    midNormalize (s.map toUnicodeAlias) = midNormalize s := by
  unfold midNormalize
  rw [replaceIff_map_toUni, replaceImp_map_toUni, List.filter_map]
  have h1 : ((fun c => !isPySpace c) ∘ toUnicodeAlias) = (fun c => !isPySpace c) := by
    funext c
    simp [Function.comp, isPySpace_toUni]
  rw [h1]
  simp only [List.map_map]
  congr 1
  funext c
  simpa [Function.comp] using aliasMap_toLower_toUni c

theorem normalize_map_toUni (s : List Char) :
    _normalize_expr (s.map toUnicodeAlias) = _normalize_expr s := by
  unfold _normalize_expr
  rw [pstrip_map_toUni]
  by_cases h : pstrip s = []
  · simp [h]
  · rw [if_neg (by simpa using h), if_neg h, midNormalize_map_toUni]

/-- C6: alias round-trip — replacing the ASCII course aliases of any input by
their Unicode forms leaves the whole normalization (and hence the token
stream) unchanged; in particular lexing `,p ` q` and lexing `¬p ∧ q` produce
structurally identical token streams, and a formula mixing both notations is
accepted with the same tokens. -/
theorem claim6_alias_roundtrip :
    (∀ s : List Char, _normalize_expr (s.map toUnicodeAlias) = _normalize_expr s)
    ∧ aliasUnicode.toList = aliasAscii.toList.map toUnicodeAlias
    ∧ normalize_and_tokenize aliasAscii = normalize_and_tokenize aliasUnicode
    ∧ normalize_and_tokenize aliasAscii
      = .ok [Token.NOT, Token.VAR 'p', Token.AND, Token.VAR 'q']
    ∧ normalize_and_tokenize aliasMixed
      = .ok [Token.NOT, Token.VAR 'p', Token.AND, Token.VAR 'q'] :=
  ⟨normalize_map_toUni, by decide, by decide, by decide, by decide⟩

/-- The allowed character set as the claim states it: the six variable
letters, the five post-normalization operator symbols, and parentheses.
The source's `_ALLOWED_TOKENS` additionally lists ¬, ∧, ∨, which the alias
normalization has already removed by the time the check runs. -/
def claimAllowed : List Char :=
  ['p', 'q', 'r', 'o', 'i', 'y', '(', ')', ',', backquote, '~', '→', '↔']

theorem aliasMap_ne (c : Char) :
    aliasMap c ≠ '¬' ∧ aliasMap c ≠ '∧' ∧ aliasMap c ≠ '∨' := by
  unfold aliasMap
  split_ifs with h1 h2 h3
  · exact ⟨by decide, by decide, by decide⟩
  · exact ⟨by decide, by decide, by decide⟩
  · exact ⟨by decide, by decide, by decide⟩
  · exact ⟨h1, h2, h3⟩

theorem contains_bridge (d : Char) (h1 : d ≠ '¬') (h2 : d ≠ '∧') (h3 : d ≠ '∨') :
    _ALLOWED_TOKENS.contains d = claimAllowed.contains d := by
  have b1 : decide (d = '¬') = false := decide_eq_false h1
  have b2 : decide (d = '∧') = false := decide_eq_false h2
  have b3 : decide (d = '∨') = false := decide_eq_false h3
  simp [_ALLOWED_TOKENS, claimAllowed, List.contains_cons, b1, b2, b3]

theorem normalize_rejects_bad_char (expr : List Char)
    (hbad : ∃ c ∈ midNormalize (pstrip expr), claimAllowed.contains c = false) :
    _normalize_expr expr = .error .invalidCharacter := by
  obtain ⟨c0, hc0mem, hc0bad⟩ := hbad
  have himg : ∃ c1, c0 = aliasMap c1 := by
    unfold midNormalize at hc0mem
    rcases List.mem_map.mp hc0mem with ⟨c1, _, hh⟩
    exact ⟨c1, hh.symm⟩
  obtain ⟨c1, rfl⟩ := himg
  have hn := aliasMap_ne c1
  have hAll : _ALLOWED_TOKENS.contains (aliasMap c1) = false := by
    rw [contains_bridge _ hn.1 hn.2.1 hn.2.2]
    exact hc0bad
  have hne : pstrip expr ≠ [] := by
    intro h
    rw [h] at hc0mem
    have hmz : midNormalize ([] : List Char) = [] := rfl
    rw [hmz] at hc0mem
    simp at hc0mem
  have hcond : ¬ ((midNormalize (pstrip expr)).all
      (fun c => _ALLOWED_TOKENS.contains c) = true) := by
    intro hall
    rw [List.all_eq_true] at hall
    have h2 := hall _ hc0mem
    exact Bool.false_ne_true (hAll ▸ h2)
  unfold _normalize_expr
  rw [if_neg hne, if_neg hcond]

/-- C7: whenever any character of the normalized input (after whitespace
stripping, digraph replacement, lowercasing and alias normalization) lies
outside the allowed set of variable letters, the five operator symbols and
parentheses, the whole input is rejected with the InvalidCharacter error —
normalization raises, and the lexer therefore produces no token stream at
all (no prefix is partially parsed). -/
theorem claim7_invalid_character_rejection :
    ∀ expr : List Char,
      (∃ c ∈ midNormalize (pstrip expr), claimAllowed.contains c = false) →
      _normalize_expr expr = .error .invalidCharacter
      ∧ (_normalize_expr expr).bind _tokenize = .error .invalidCharacter := by
  intro expr hbad
  have h := normalize_rejects_bad_char expr hbad
  exact ⟨h, by rw [h]; rfl⟩

/-- Witness for C7 at the concrete input `p & q`, whose `&` survives
normalization and is outside the allowed set. -/
theorem claim7_invalid_character_rejection_witness :
    (∃ c ∈ midNormalize (pstrip badCharExpr.toList), claimAllowed.contains c = false)
    ∧ _normalize_expr badCharExpr.toList = .error .invalidCharacter :=
  ⟨by decide, (claim7_invalid_character_rejection badCharExpr.toList (by decide)).1⟩

theorem find?_eq_some_split {α : Type} (p : α → Bool) (l : List α) (a : α) :
    l.find? p = some a ↔
      ∃ pre post, l = pre ++ a :: post ∧ p a = true ∧ ∀ x ∈ pre, p x = false := by
  induction l with
  | nil => simp
  | cons h t ih =>
    by_cases hp : p h = true
    · rw [List.find?_cons_of_pos t hp]
      constructor
      · intro he
        injection he with he
        subst he
        exact ⟨[], t, rfl, hp, by simp⟩
      · rintro ⟨pre, post, heq, hpa, hpre⟩
        cases pre with
        | nil =>
          simp only [List.nil_append] at heq
          rw [(List.cons.inj heq).1]
        | cons x xs =>
          simp only [List.cons_append] at heq
          have hx : h = x := (List.cons.inj heq).1
          have hfx := hpre x (by simp)
          rw [← hx] at hfx
          rw [hfx] at hp
          exact absurd hp (by simp)
    · rw [List.find?_cons_of_neg t hp]
      rw [ih]
      constructor
      · rintro ⟨pre, post, heq, hpa, hpre⟩
        refine ⟨h :: pre, post, by rw [heq, List.cons_append], hpa, ?_⟩
        intro x hx
        rcases List.mem_cons.mp hx with h1 | h2
        · subst h1
          exact Bool.eq_false_iff.mpr hp
        · exact hpre x h2
      · rintro ⟨pre, post, heq, hpa, hpre⟩
        cases pre with
        | nil =>
          simp only [List.nil_append] at heq
          have ha := (List.cons.inj heq).1
          rw [← ha] at hpa
          exact absurd hpa hp
        | cons x xs =>
          simp only [List.cons_append] at heq
          have h2 := (List.cons.inj heq).2
          exact ⟨xs, post, h2, hpa, fun y hy => hpre y (by simp [hy])⟩

theorem tt_rows_length (vars : List Char) : (_tt_rows vars).length = 2 ^ vars.length := by
  induction vars with
  | nil => rfl
  | cons v vs ih =>
    simp only [_tt_rows, List.length_append, List.length_map, ih, List.length_cons, pow_succ]
    omega

/-- C4: the equivalence checker returns `(true, none)` exactly when the two
programs agree on every one of the `2 ^ |vars|` assignments enumerated by
`_tt_rows`, and otherwise returns `(false, some env)` for the first
disagreeing assignment in the fixed enumeration order (variables in the
given order, each variable's `true` rows enumerated before its `false`
rows, as the last conjunct states definitionally). -/
theorem claim4_equivalence_checker :
    ∀ (pa pb : List Token) (vars : List Char),
      ((_tt_rows vars).length = 2 ^ vars.length)
      ∧ (equivalent pa pb vars = (true, none)
          ↔ ∀ row ∈ _tt_rows vars, agreeOn pa pb row = true)
      ∧ (∀ row, equivalent pa pb vars = (false, some row) ↔
          ∃ pre post, _tt_rows vars = pre ++ row :: post ∧ agreeOn pa pb row = false
            ∧ ∀ r ∈ pre, agreeOn pa pb r = true)
      ∧ (∀ v vs, _tt_rows (v :: vs)
          = ((_tt_rows vs).map (fun row => (v, true) :: row))
            ++ ((_tt_rows vs).map (fun row => (v, false) :: row))) := by
  intro pa pb vars
  refine ⟨tt_rows_length vars, ?_, ?_, fun _ _ => rfl⟩
  · unfold equivalent
    cases hf : (_tt_rows vars).find? (fun row => !(agreeOn pa pb row)) with
    | none =>
      constructor
      · intro _ row hrow
        have hh := (List.find?_eq_none.mp hf) row hrow
        simpa using hh
      · intro _
        rfl
    | some r =>
      constructor
      · intro he
        exact absurd he (by simp)
      · intro hall
        have hr := List.find?_some hf
        have hmem := List.mem_of_find?_eq_some hf
        have hag := hall r hmem
        rw [hag] at hr
        simp at hr
  · intro row
    have key := find?_eq_some_split (fun r => !(agreeOn pa pb r)) (_tt_rows vars) row
    simp only [Bool.not_eq_true', Bool.not_eq_false'] at key
    rw [← key]
    unfold equivalent
    cases hf : (_tt_rows vars).find? (fun row => !(agreeOn pa pb row)) with
    | none => simp
    | some r => simp
def stackOk : Nat → List Token → Bool
  | k, [] => k == 1
  | k, Token.VAR _ :: rest => stackOk (k + 1) rest
  | k, Token.NOT :: rest => if 1 ≤ k then stackOk k rest else false
  | k, Token.AND :: rest => if 2 ≤ k then stackOk (k - 1) rest else false
  | k, Token.OR :: rest => if 2 ≤ k then stackOk (k - 1) rest else false
  | k, Token.IMP :: rest => if 2 ≤ k then stackOk (k - 1) rest else false
  | k, Token.IFF :: rest => if 2 ≤ k then stackOk (k - 1) rest else false
  | k, Token.LPAREN :: rest => stackOk k rest
  | k, Token.RPAREN :: rest => stackOk k rest

def wellFormedRPN (rpn : List Token) : Bool := stackOk 0 rpn

theorem evalGo_unbound (rpn : List Token) :
    ∀ (st : List Bool) (env : Char → Option Bool),
      stackOk st.length rpn = true →
      (∃ c, Token.VAR c ∈ rpn ∧ env c = none) →
      evalGo rpn st env = .error .unboundVariable := by
  induction rpn with
  | nil =>
    intro st env hwf hex
    obtain ⟨c, hmem, _⟩ := hex
    simp at hmem
  | cons t rest ih =>
    intro st env hwf hex
    obtain ⟨c, hmem, hc⟩ := hex
    cases t with
    | VAR c' =>
      cases henv : env c' with
      | none => simp [evalGo, henv]
      | some b =>
        have hmem' : Token.VAR c ∈ rest := by
          rcases List.mem_cons.mp hmem with h1 | h2
          · have hcc : c = c' := by injection h1
            rw [hcc, henv] at hc
            cases hc
          · exact h2
        have hwf' : stackOk (b :: st).length rest = true := by
          simpa [stackOk] using hwf
        simp only [evalGo, henv]
        exact ih (b :: st) env hwf' ⟨c, hmem', hc⟩
    | NOT =>
      have hlen : 1 ≤ st.length := by
        by_contra h
        simp [stackOk, if_neg h] at hwf
      cases st with
      | nil => simp at hlen
      | cons x xs =>
        have hmem' : Token.VAR c ∈ rest := by
          rcases List.mem_cons.mp hmem with h1 | h2
          · exact absurd h1 (by simp)
          · exact h2
        have hwf' : stackOk ((!x) :: xs).length rest = true := by
          simpa [stackOk] using hwf
        simp only [evalGo]
        exact ih _ env hwf' ⟨c, hmem', hc⟩
    | AND =>
      have hlen : 2 ≤ st.length := by
        by_contra h
        simp [stackOk, if_neg h] at hwf
      match st, hlen with
      | b :: a :: xs, _ =>
        have hmem' : Token.VAR c ∈ rest := by
          rcases List.mem_cons.mp hmem with h1 | h2
          · exact absurd h1 (by simp)
          · exact h2
        have hwf' : stackOk ((applyBin Token.AND a b) :: xs).length rest = true := by
          simpa [stackOk] using hwf
        simp only [evalGo]
        exact ih _ env hwf' ⟨c, hmem', hc⟩
    | OR =>
      have hlen : 2 ≤ st.length := by
        by_contra h
        simp [stackOk, if_neg h] at hwf
      match st, hlen with
      | b :: a :: xs, _ =>
        have hmem' : Token.VAR c ∈ rest := by
          rcases List.mem_cons.mp hmem with h1 | h2
          · exact absurd h1 (by simp)
          · exact h2
        have hwf' : stackOk ((applyBin Token.OR a b) :: xs).length rest = true := by
          simpa [stackOk] using hwf
        simp only [evalGo]
        exact ih _ env hwf' ⟨c, hmem', hc⟩
    | IMP =>
      have hlen : 2 ≤ st.length := by
        by_contra h
        simp [stackOk, if_neg h] at hwf
      match st, hlen with
      | b :: a :: xs, _ =>
        have hmem' : Token.VAR c ∈ rest := by
          rcases List.mem_cons.mp hmem with h1 | h2
          · exact absurd h1 (by simp)
          · exact h2
        have hwf' : stackOk ((applyBin Token.IMP a b) :: xs).length rest = true := by
          simpa [stackOk] using hwf
        simp only [evalGo]
        exact ih _ env hwf' ⟨c, hmem', hc⟩
    | IFF =>
      have hlen : 2 ≤ st.length := by
        by_contra h
        simp [stackOk, if_neg h] at hwf
      match st, hlen with
      | b :: a :: xs, _ =>
        have hmem' : Token.VAR c ∈ rest := by
          rcases List.mem_cons.mp hmem with h1 | h2
          · exact absurd h1 (by simp)
          · exact h2
        have hwf' : stackOk ((applyBin Token.IFF a b) :: xs).length rest = true := by
          simpa [stackOk] using hwf
        simp only [evalGo]
        exact ih _ env hwf' ⟨c, hmem', hc⟩
    | LPAREN =>
      have hmem' : Token.VAR c ∈ rest := by
        rcases List.mem_cons.mp hmem with h1 | h2
        · exact absurd h1 (by simp)
        · exact h2
      have hwf' : stackOk st.length rest = true := by
        simpa [stackOk] using hwf
      simp only [evalGo]
      exact ih _ env hwf' ⟨c, hmem', hc⟩
    | RPAREN =>
      have hmem' : Token.VAR c ∈ rest := by
        rcases List.mem_cons.mp hmem with h1 | h2
        · exact absurd h1 (by simp)
        · exact h2
      have hwf' : stackOk st.length rest = true := by
        simpa [stackOk] using hwf
      simp only [evalGo]
      exact ih _ env hwf' ⟨c, hmem', hc⟩
theorem evalGo_ok_bound (rpn : List Token) :
    ∀ (st : List Bool) (env : Char → Option Bool) (v : Bool),
      evalGo rpn st env = .ok v →
      ∀ c, Token.VAR c ∈ rpn → env c ≠ none := by
  induction rpn with
  | nil =>
    intro st env v _ c hmem
    simp at hmem
  | cons t rest ih =>
    intro st env v hok c hmem
    cases t with
    | VAR c' =>
      cases henv : env c' with
      | none => simp [evalGo, henv] at hok
      | some b =>
        rcases List.mem_cons.mp hmem with h1 | h2
        · have hcc : c = c' := by injection h1
          rw [hcc, henv]
          simp
        · simp only [evalGo, henv] at hok
          exact ih _ env v hok c h2
    | NOT =>
      cases st with
      | nil => simp [evalGo] at hok
      | cons x xs =>
        have hmem' : Token.VAR c ∈ rest := by
          rcases List.mem_cons.mp hmem with h1 | h2
          · exact absurd h1 (by simp)
          · exact h2
        simp only [evalGo] at hok
        exact ih _ env v hok c hmem'
    | AND =>
      match st with
      | [] => simp [evalGo] at hok
      | [x] => simp [evalGo] at hok
      | b :: a :: xs =>
        have hmem' : Token.VAR c ∈ rest := by
          rcases List.mem_cons.mp hmem with h1 | h2
          · exact absurd h1 (by simp)
          · exact h2
        simp only [evalGo] at hok
        exact ih _ env v hok c hmem'
    | OR =>
      match st with
      | [] => simp [evalGo] at hok
      | [x] => simp [evalGo] at hok
      | b :: a :: xs =>
        have hmem' : Token.VAR c ∈ rest := by
          rcases List.mem_cons.mp hmem with h1 | h2
          · exact absurd h1 (by simp)
          · exact h2
        simp only [evalGo] at hok
        exact ih _ env v hok c hmem'
    | IMP =>
      match st with
      | [] => simp [evalGo] at hok
      | [x] => simp [evalGo] at hok
      | b :: a :: xs =>
        have hmem' : Token.VAR c ∈ rest := by
          rcases List.mem_cons.mp hmem with h1 | h2
          · exact absurd h1 (by simp)
          · exact h2
        simp only [evalGo] at hok
        exact ih _ env v hok c hmem'
    | IFF =>
      match st with
      | [] => simp [evalGo] at hok
      | [x] => simp [evalGo] at hok
      | b :: a :: xs =>
        have hmem' : Token.VAR c ∈ rest := by
          rcases List.mem_cons.mp hmem with h1 | h2
          · exact absurd h1 (by simp)
          · exact h2
        simp only [evalGo] at hok
        exact ih _ env v hok c hmem'
    | LPAREN =>
      have hmem' : Token.VAR c ∈ rest := by
        rcases List.mem_cons.mp hmem with h1 | h2
        · exact absurd h1 (by simp)
        · exact h2
      simp only [evalGo] at hok
      exact ih _ env v hok c hmem'
    | RPAREN =>
      have hmem' : Token.VAR c ∈ rest := by
        rcases List.mem_cons.mp hmem with h1 | h2
        · exact absurd h1 (by simp)
        · exact h2
      simp only [evalGo] at hok
      exact ih _ env v hok c hmem'

/-- Counterexample to C9 as stated: the RPN program of `,`p` contains the
variable token `p`, which is unbound in the empty environment, yet evaluation
fails with the missing-operand error of NOT — raised before the unbound
lookup is reached — not with UnboundVariable. -/
theorem claim9_counterexample :
    parse_to_rpn notThenAnd = .ok [Token.NOT, Token.VAR 'p', Token.AND]
    ∧ Token.VAR 'p' ∈ [Token.NOT, Token.VAR 'p', Token.AND]
    ∧ emptyEnv 'p' = none
    ∧ _eval_rpn [Token.NOT, Token.VAR 'p', Token.AND] emptyEnv
      = .error .missingOperandNot
    ∧ (Except.error LogicError.missingOperandNot : Except LogicError Bool)
      ≠ .error .unboundVariable := by
  refine ⟨by decide, by decide, rfl, by decide, by decide⟩

/-- C9 amended: for every well-formed RPN program (token kinds never underflow
the boolean stack) containing a variable unbound in the environment,
evaluation fails with the typed UnboundVariable error; and for an arbitrary
RPN program containing an unbound variable, evaluation never returns a
boolean — the unbound variable is never silently defaulted to false. -/
theorem claim9_unbound_variable :
    (∀ (rpn : List Token) (env : Char → Option Bool),
      wellFormedRPN rpn = true →
      (∃ c, Token.VAR c ∈ rpn ∧ env c = none) →
      _eval_rpn rpn env = .error .unboundVariable)
    ∧ (∀ (rpn : List Token) (env : Char → Option Bool) (v : Bool),
      (∃ c, Token.VAR c ∈ rpn ∧ env c = none) →
      _eval_rpn rpn env ≠ .ok v) := by
  constructor
  · intro rpn env hwf hex
    exact evalGo_unbound rpn [] env hwf hex
  · intro rpn env v hex hok
    obtain ⟨c, hmem, hc⟩ := hex
    exact (evalGo_ok_bound rpn [] env v hok c hmem) hc

/-- Witness for C9's amended claim at the well-formed one-token program
consisting of the unbound variable `p`. -/
theorem claim9_unbound_variable_witness :
    wellFormedRPN [Token.VAR 'p'] = true
    ∧ _eval_rpn [Token.VAR 'p'] emptyEnv = .error .unboundVariable :=
  ⟨by decide,
    claim9_unbound_variable.1 [Token.VAR 'p'] emptyEnv (by decide) ⟨'p', by simp, rfl⟩⟩
def countLpar (l : List Token) : Nat := l.countP (fun t => t == Token.LPAREN)

def parenBalanced : Nat → List Token → Bool
  | k, [] => k == 0
  | k, Token.LPAREN :: rest => parenBalanced (k + 1) rest
  | k, Token.RPAREN :: rest =>
    match k with
    | 0 => false
    | k' + 1 => parenBalanced k' rest
  | k, Token.VAR _ :: rest => parenBalanced k rest
  | k, Token.NOT :: rest => parenBalanced k rest
  | k, Token.AND :: rest => parenBalanced k rest
  | k, Token.OR :: rest => parenBalanced k rest
  | k, Token.IMP :: rest => parenBalanced k rest
  | k, Token.IFF :: rest => parenBalanced k rest

theorem popWhileHigher_ops (tok : Token) :
    ∀ (ops output : List Token),
      countLpar (popWhileHigher tok ops output).2 = countLpar ops
      ∧ (Token.RPAREN ∉ ops → Token.RPAREN ∉ (popWhileHigher tok ops output).2) := by
  intro ops
  induction ops with
  | nil =>
    intro output
    simp [popWhileHigher]
  | cons top restOps ih =>
    intro output
    unfold popWhileHigher
    split_ifs with h1 h2
    · exact ⟨rfl, fun h => h⟩
    · have hrec := ih (output ++ [top])
      refine ⟨?_, ?_⟩
      · rw [hrec.1]
        simp [countLpar, List.countP_cons, h1]
      · intro hR
        exact hrec.2 (fun hmem => hR (List.mem_cons_of_mem _ hmem))
    · exact ⟨rfl, fun h => h⟩

theorem popUntilLparen_ok :
    ∀ (ops output : List Token),
      1 ≤ countLpar ops →
      ∃ out' ops', popUntilLparen ops output = .ok (out', ops')
        ∧ countLpar ops' + 1 = countLpar ops
        ∧ (Token.RPAREN ∉ ops → Token.RPAREN ∉ ops') := by
  intro ops
  induction ops with
  | nil =>
    intro output h
    simp [countLpar] at h
  | cons top restOps ih =>
    intro output h
    unfold popUntilLparen
    by_cases h1 : top = Token.LPAREN
    · rw [if_pos h1]
      refine ⟨output, restOps, rfl, ?_, fun hR hm => hR (List.mem_cons_of_mem _ hm)⟩
      subst h1
      simp [countLpar, List.countP_cons]
    · rw [if_neg h1]
      have hc : 1 ≤ countLpar restOps := by
        simpa [countLpar, List.countP_cons, h1] using h
      obtain ⟨out', ops', heq, hcount, hmem⟩ := ih (output ++ [top]) hc
      refine ⟨out', ops', heq, ?_, ?_⟩
      · rw [hcount]
        simp [countLpar, List.countP_cons, h1]
      · intro hR
        exact hmem (fun hm => hR (List.mem_cons_of_mem _ hm))

theorem flushOps_ok :
    ∀ (ops output : List Token),
      countLpar ops = 0 → Token.RPAREN ∉ ops →
      ∃ out, flushOps ops output = .ok out := by
  intro ops
  induction ops with
  | nil =>
    intro output _ _
    exact ⟨output, rfl⟩
  | cons top restOps ih =>
    intro output hc hR
    have h1 : top ≠ Token.LPAREN := by
      intro h
      subst h
      simp [countLpar, List.countP_cons] at hc
    have h2 : top ≠ Token.RPAREN := by
      intro h
      exact hR (by rw [h]; exact List.mem_cons_self _ _)
    unfold flushOps
    rw [if_neg (by rintro (h | h); exacts [h1 h, h2 h])]
    exact ih (output ++ [top]) (by simpa [countLpar, List.countP_cons, h1] using hc)
      (fun hm => hR (List.mem_cons_of_mem _ hm))

theorem toRpnGo_ok :
    ∀ (ts ops output : List Token),
      parenBalanced (countLpar ops) ts = true →
      Token.RPAREN ∉ ops →
      ∃ out, toRpnGo ts output ops = .ok out := by
  intro ts
  induction ts with
  | nil =>
    intro ops output hbal hR
    have hz : countLpar ops = 0 := by simpa [parenBalanced] using hbal
    exact flushOps_ok ops output hz hR
  | cons t rest ih =>
    intro ops output hbal hR
    cases t with
    | VAR c => exact ih ops (output ++ [Token.VAR c]) hbal hR
    | NOT =>
      refine ih (Token.NOT :: ops) output ?_ ?_
      · have : countLpar (Token.NOT :: ops) = countLpar ops := by
          simp [countLpar, List.countP_cons]
        rw [this]
        exact hbal
      · intro hm
        rcases List.mem_cons.mp hm with h | h
        · exact absurd h (by decide)
        · exact hR h
    | AND =>
      have hp := popWhileHigher_ops Token.AND ops output
      refine ih (Token.AND :: (popWhileHigher Token.AND ops output).2)
        (popWhileHigher Token.AND ops output).1 ?_ ?_
      · have : countLpar (Token.AND :: (popWhileHigher Token.AND ops output).2)
            = countLpar ops := by
          rw [← hp.1]
          simp [countLpar, List.countP_cons]
        rw [this]
        exact hbal
      · intro hm
        rcases List.mem_cons.mp hm with h | h
        · exact absurd h (by decide)
        · exact hp.2 hR h
    | OR =>
      have hp := popWhileHigher_ops Token.OR ops output
      refine ih (Token.OR :: (popWhileHigher Token.OR ops output).2)
        (popWhileHigher Token.OR ops output).1 ?_ ?_
      · have : countLpar (Token.OR :: (popWhileHigher Token.OR ops output).2)
            = countLpar ops := by
          rw [← hp.1]
          simp [countLpar, List.countP_cons]
        rw [this]
        exact hbal
      · intro hm
        rcases List.mem_cons.mp hm with h | h
        · exact absurd h (by decide)
        · exact hp.2 hR h
    | IMP =>
      have hp := popWhileHigher_ops Token.IMP ops output
      refine ih (Token.IMP :: (popWhileHigher Token.IMP ops output).2)
        (popWhileHigher Token.IMP ops output).1 ?_ ?_
      · have : countLpar (Token.IMP :: (popWhileHigher Token.IMP ops output).2)
            = countLpar ops := by
          rw [← hp.1]
          simp [countLpar, List.countP_cons]
        rw [this]
        exact hbal
      · intro hm
        rcases List.mem_cons.mp hm with h | h
        · exact absurd h (by decide)
        · exact hp.2 hR h
    | IFF =>
      have hp := popWhileHigher_ops Token.IFF ops output
      refine ih (Token.IFF :: (popWhileHigher Token.IFF ops output).2)
        (popWhileHigher Token.IFF ops output).1 ?_ ?_
      · have : countLpar (Token.IFF :: (popWhileHigher Token.IFF ops output).2)
            = countLpar ops := by
          rw [← hp.1]
          simp [countLpar, List.countP_cons]
        rw [this]
        exact hbal
      · intro hm
        rcases List.mem_cons.mp hm with h | h
        · exact absurd h (by decide)
        · exact hp.2 hR h
    | LPAREN =>
      refine ih (Token.LPAREN :: ops) output ?_ ?_
      · have : countLpar (Token.LPAREN :: ops) = countLpar ops + 1 := by
          simp [countLpar, List.countP_cons]
        rw [this]
        exact hbal
      · intro hm
        rcases List.mem_cons.mp hm with h | h
        · exact absurd h (by decide)
        · exact hR h
    | RPAREN =>
      cases hk : countLpar ops with
      | zero =>
        rw [hk] at hbal
        simp [parenBalanced] at hbal
      | succ k' =>
        have h1 : 1 ≤ countLpar ops := by omega
        obtain ⟨out', ops', heq, hcount, hmem⟩ := popUntilLparen_ok ops output h1
        have hstep : toRpnGo (Token.RPAREN :: rest) output ops = toRpnGo rest out' ops' := by
          show (match popUntilLparen ops output with
            | .error e => .error e
            | .ok (output', ops') => toRpnGo rest output' ops') = toRpnGo rest out' ops'
          rw [heq]
        rw [hstep]
        refine ih ops' out' ?_ (hmem hR)
        have hops' : countLpar ops' = k' := by omega
        rw [hops']
        rw [hk] at hbal
        simpa [parenBalanced] using hbal

/-- C10: the parser performs no operand-arity checking — every token sequence
with balanced parentheses converts to RPN without error (the tokens of
`p ` ` q`, a lone binary operator, and the empty sequence included), and
arity violations surface only in `_eval_rpn`, as a stack underflow error or
as the residual-stack Malformed expression error. -/
theorem claim10_parsing_defers_arity_errors :
    (∀ tokens : List Token,
      parenBalanced 0 tokens = true → ∃ out, _to_rpn tokens = .ok out)
    ∧ parse_to_rpn doubledOp = .ok [Token.VAR 'p', Token.AND, Token.VAR 'q', Token.AND]
    ∧ _to_rpn [Token.AND] = .ok [Token.AND]
    ∧ _to_rpn [] = .ok []
    ∧ _eval_rpn [Token.AND] emptyEnv = .error .missingOperandsBinary
    ∧ _eval_rpn [] emptyEnv = .error .malformedExpression
    ∧ _eval_rpn [Token.VAR 'p', Token.VAR 'q'] (env2 true true)
      = .error .malformedExpression := by
  refine ⟨?_, by decide, by decide, by decide, by decide, by decide, by decide⟩
  intro tokens hbal
  exact toRpnGo_ok tokens [] [] hbal (by simp)

/-- Witness for C10 at the concrete balanced token sequence `( AND )`, which
is operand-free yet parses without error. -/
theorem claim10_parsing_defers_arity_errors_witness :
    parenBalanced 0 [Token.LPAREN, Token.AND, Token.RPAREN] = true
    ∧ ∃ out, _to_rpn [Token.LPAREN, Token.AND, Token.RPAREN] = .ok out :=
  ⟨by decide, claim10_parsing_defers_arity_errors.1 _ (by decide)⟩

/-- Witness for C4 at concrete inputs: the row count over {p, q} is 2^2 and
the checker reports a program equivalent to itself with no counterexample. -/
theorem claim4_equivalence_checker_witness :
    (_tt_rows ['p', 'q']).length = 2 ^ (['p', 'q'] : List Char).length
    ∧ equivalent [Token.VAR 'p'] [Token.VAR 'p'] ['p', 'q'] = (true, none) :=
  ⟨(claim4_equivalence_checker [Token.VAR 'p'] [Token.VAR 'p'] ['p', 'q']).1,
    (claim4_equivalence_checker [Token.VAR 'p'] [Token.VAR 'p'] ['p', 'q']).2.1.mpr
      (by decide)⟩
